import Mathlib

/-!
Shallow embedding of the link_drops board / game logic
(src/gameBoard.ts, src/piece.ts, src/game.ts) and proofs of the
specification claims about it.

Conventions:
* `TerrainType` mirrors the `TerrainType` enum of `src/types.ts`.
* A `Board` is the `GameBoard` class: `width`, `height` and a row-major
  `grid` (row `y`, column `x`), with well-formedness `Board.WF` stating
  the grid really is `height` rows of `width` cells (the constructor
  guarantees this).
* Coordinates are integers (`Int × Int`), as in the JavaScript source,
  where the flood-fill stack can hold negative coordinates.
* In-bounds reads of the raw grid use `cellAt` / `pcell`; the defaults of
  `List.getD` are never reached on a well-formed board at in-bounds
  coordinates.
-/

inductive TerrainType where
  | EMPTY
  | FOREST
  | MOUNTAIN
  | WATER
  | PATH
  | HAZARD
  | PLAYER
  | ENEMY
  | TREASURE
  | SAFE_HAVEN
deriving DecidableEq, Repr

/-- A position on (or off) the board, `(x, y)` with integer coordinates. -/
abbrev Pos : Type := Int × Int

/-- The `GameBoard` class of `src/gameBoard.ts`: dimensions and a row-major
grid (`grid[y][x]`). -/
structure Board where
  width : Nat
  height : Nat
  grid : List (List TerrainType)
deriving DecidableEq, Repr

/-- Well-formedness established by the `GameBoard` constructor: `height`
rows, each of length `width`. -/
def Board.WF (b : Board) : Prop :=
  b.grid.length = b.height ∧ ∀ row ∈ b.grid, row.length = b.width

instance (b : Board) : Decidable b.WF := by
  unfold Board.WF; infer_instance

/-- Raw in-bounds grid read `grid[y][x]` with natural-number coordinates. -/
def cellAt (b : Board) (x y : Nat) : TerrainType :=
  (b.grid.getD y []).getD x TerrainType.EMPTY

/-- Raw grid read at an integer position (only used at in-bounds positions,
where `Int.toNat` is the identity on the coordinates). -/
def pcell (b : Board) (p : Pos) : TerrainType :=
  cellAt b p.1.toNat p.2.toNat

/-- Raw unchecked grid write `grid[y][x] = t` (the JavaScript assignment):
no bounds check. -/
def setRaw (b : Board) (x y : Nat) (t : TerrainType) : Board :=
  { b with grid := b.grid.set y ((b.grid.getD y []).set x t) }

/-- `GameBoard.isPositionValid` of `src/gameBoard.ts` (lines 14-16). -/
def Board.isPositionValid (b : Board) (x y : Int) : Bool :=
  0 ≤ x && x < (b.width : Int) && 0 ≤ y && y < (b.height : Int)

/-- `GameBoard.getCell` of `src/gameBoard.ts` (lines 18-23): `none` models
the `undefined` sentinel returned out of bounds. -/
def Board.getCell (b : Board) (x y : Int) : Option TerrainType :=
  if b.isPositionValid x y then some (cellAt b x.toNat y.toNat) else none

/-- `GameBoard.setCell` of `src/gameBoard.ts` (lines 25-29): a write guarded
by the bounds check; out of bounds it is a no-op. -/
def Board.setCell (b : Board) (x y : Int) (t : TerrainType) : Board :=
  if b.isPositionValid x y then setRaw b x.toNat y.toNat t else b

/-- Row `y` has no `EMPTY` cell (the inner loop of `checkCompletedLines`). -/
def rowComplete (b : Board) (y : Nat) : Bool :=
  (List.range b.width).all fun x => !(cellAt b x y == TerrainType.EMPTY)

/-- `GameBoard.checkCompletedLines` of `src/gameBoard.ts` (lines 31-46):
the ascending list of indices of rows with no `EMPTY` cell. -/
def Board.checkCompletedLines (b : Board) : List Nat :=
  (List.range b.height).filter fun y => rowComplete b y

/-- `GameBoard.convertCompletedLinesToPath` of `src/gameBoard.ts`
(lines 48-54): for each given row, set every cell of that row to `PATH`. -/
def Board.convertCompletedLinesToPath (b : Board) (lines : List Nat) : Board :=
  lines.foldl (fun bb y => (List.range bb.width).foldl (fun b2 x => setRaw b2 x y TerrainType.PATH) bb) b

/-- The per-cell check of `isValidMove` (`src/game.ts` lines 246-252):
in bounds and currently `EMPTY`. -/
def cellOK (b : Board) (x y : Int) : Bool :=
  b.isPositionValid x y && (b.getCell x y == some TerrainType.EMPTY)

/-- `isValidMove` of `src/game.ts` (lines 239-257): every nonzero shape cell
must map to an in-bounds `EMPTY` grid cell. -/
def isValidMove (b : Board) (shape : List (List Nat)) (pos : Pos) : Bool :=
  (List.range shape.length).all fun y =>
    (List.range (shape.getD y []).length).all fun x =>
      (shape.getD y []).getD x 0 == 0
        || cellOK b (pos.1 + Int.ofNat x) (pos.2 + Int.ofNat y)

/-- `Piece.rotate` of `src/piece.ts` (lines 14-24): new row `i` reads the
original rows bottom-to-top at column `i`. -/
def rotate (shape : List (List Nat)) : List (List Nat) :=
  (List.range (shape.headD []).length).map fun i =>
    (List.range shape.length).reverse.map fun j => (shape.getD j []).getD i 0

/-- A shape matrix is rectangular with `r` rows and `c` columns. -/
def Rect (shape : List (List Nat)) (r c : Nat) : Prop :=
  shape.length = r ∧ ∀ row ∈ shape, row.length = c

/-- The position `p` is inside the board. -/
def inB (b : Board) (p : Pos) : Prop :=
  0 ≤ p.1 ∧ p.1 < (b.width : Int) ∧ 0 ≤ p.2 ∧ p.2 < (b.height : Int)

instance (b : Board) (p : Pos) : Decidable (inB b p) := by
  unfold inB; infer_instance

/-- All in-bounds positions of `b`, as a finite set. -/
def allCells (b : Board) : Finset Pos :=
  (Finset.range b.width ×ˢ Finset.range b.height).image
    fun q : Nat × Nat => ((q.1 : Int), (q.2 : Int))

/-- The position `(x, y)` is inside the board, with natural coordinates. -/
def inBN (b : Board) (x y : Nat) : Prop := x < b.width ∧ y < b.height

/-- The flood-fill loop of `GameBoard.identifyHazards` (`src/gameBoard.ts`
lines 65-83): a stack-driven DFS.  The stack is a list with its head on
top; popping a cell that is out of bounds, already visited, or not `EMPTY`
skips it; otherwise the cell is marked visited, appended to the cluster,
and its four neighbours pushed so that `(cx, cy-1)` ends on top (the source
pushes `+x`, `-x`, `+y`, `-y` in that order). -/
def floodLoop (b : Board) (V : Finset Pos) (S : List Pos) (C : List Pos) :
    Finset Pos × List Pos :=
  match S with
  | [] => (V, C)
  | c :: rest =>
    if ¬ inB b c ∨ c ∈ V ∨ pcell b c ≠ TerrainType.EMPTY then
      floodLoop b V rest C
    else
      floodLoop b (insert c V)
        ((c.1, c.2 - 1) :: (c.1, c.2 + 1) :: (c.1 - 1, c.2) :: (c.1 + 1, c.2) :: rest)
        (C ++ [c])
termination_by ((allCells b \ V).card, S.length)
decreasing_by
  · exact Prod.Lex.right _ (Nat.lt_succ_self _)
  · apply Prod.Lex.left
    apply Finset.card_lt_card
    constructor
    · intro q hq
      simp only [Finset.mem_sdiff, Finset.mem_insert] at *
      tauto
    · intro hsub
      have hcin : c ∈ allCells b := by
        have hib : inB b c := by tauto
        obtain ⟨h1, h2, h3, h4⟩ := hib
        simp only [allCells, Finset.mem_image, Finset.mem_product, Finset.mem_range]
        refine ⟨(c.1.toNat, c.2.toNat), ⟨by omega, by omega⟩, ?_⟩
        simp only [Prod.ext_iff]
        constructor <;> simp [Int.toNat_of_nonneg, h1, h3]
      have hc : c ∈ allCells b \ V := by
        simp only [Finset.mem_sdiff]
        exact ⟨hcin, by tauto⟩
      have := hsub hc
      simp only [Finset.mem_sdiff, Finset.mem_insert] at this
      tauto

/-- The row-major list of all in-bounds positions, in the outer-loop order
of `identifyHazards` (`y` outer, `x` inner). -/
def allPositions (b : Board) : List Pos :=
  (List.range b.height).flatMap fun y =>
    (List.range b.width).map fun x => (Int.ofNat x, Int.ofNat y)

/-- One step of the outer loop of `identifyHazards` (`src/gameBoard.ts`
lines 59-92) at position `p`: if the cell is `EMPTY` and unvisited, flood
its component; if the cluster size is in `[1,3]`, overwrite the cluster
with `HAZARD`. -/
def hazardStep (st : Board × Finset Pos) (p : Pos) : Board × Finset Pos :=
  if pcell st.1 p = TerrainType.EMPTY ∧ p ∉ st.2 then
    let r := floodLoop st.1 st.2 [p] []
    if 0 < r.2.length ∧ r.2.length ≤ 3 then
      (r.2.foldl (fun bb q => setRaw bb q.1.toNat q.2.toNat TerrainType.HAZARD) st.1, r.1)
    else
      (st.1, r.1)
  else
    st

/-- `GameBoard.identifyHazards` of `src/gameBoard.ts` (lines 56-93). -/
def Board.identifyHazards (b : Board) : Board :=
  ((allPositions b).foldl hazardStep (b, ∅)).1

/-! ### Specification-side notions: 4-adjacency, components of Empty cells -/

/-- 4-directional adjacency. -/
def adj (p q : Pos) : Prop :=
  q = (p.1 + 1, p.2) ∨ q = (p.1 - 1, p.2) ∨ q = (p.1, p.2 + 1) ∨ q = (p.1, p.2 - 1)

/-- An in-bounds `EMPTY` cell. -/
def Good (b : Board) (p : Pos) : Prop :=
  inB b p ∧ pcell b p = TerrainType.EMPTY

/-- One flood step avoiding the set `V`: move to an adjacent good cell
outside `V`. -/
def Step (b : Board) (V : Finset Pos) (p q : Pos) : Prop :=
  adj p q ∧ Good b q ∧ q ∉ V

/-- Reachability through good cells avoiding `V` (the start is not
constrained by the relation; lemmas add `Good b p` where needed). -/
def ReachAvoid (b : Board) (V : Finset Pos) (p q : Pos) : Prop :=
  Relation.ReflTransGen (Step b V) p q

/-- Reachability through good cells: `q` is in the 4-connected Empty
component of `p`. -/
def Reach (b : Board) (p q : Pos) : Prop :=
  ReachAvoid b ∅ p q

/-- The 4-connected component of Empty cells containing `p` (as a set). -/
def compSet (b : Board) (p : Pos) : Set Pos := {q | Reach b p q}

/-- The set a run of `floodLoop` should add to `visited`: cells reachable
from a good unvisited stack element, avoiding `V`. -/
def stackReach (b : Board) (V : Finset Pos) (S : List Pos) : Set Pos :=
  {q | ∃ s ∈ S, Good b s ∧ s ∉ V ∧ ReachAvoid b V s q}

/-- The four neighbours pushed by the flood fill, in stack order. -/
def nbrl (c : Pos) : List Pos :=
  [(c.1, c.2 - 1), (c.1, c.2 + 1), (c.1 - 1, c.2), (c.1 + 1, c.2)]

/-- The invariant of the outer loop of `identifyHazards`: `b` is the
original board, `b2` the current board and `V` the visited set.  Visited
cells form a union of complete Empty components of `b`, already holding
their final value; unvisited cells are untouched. -/
structure HazInv (b b2 : Board) (V : Finset Pos) : Prop where
  hw : b2.width = b.width
  hh : b2.height = b.height
  hwf : b2.WF
  goodV : ∀ p ∈ V, Good b p
  closed : ∀ p ∈ V, ∀ q, Reach b p q → q ∈ V
  onV : ∀ p ∈ V, pcell b2 p
    = if (compSet b p).ncard ≤ 3 then TerrainType.HAZARD else TerrainType.EMPTY
  offV : ∀ q, inB b q → q ∉ V → pcell b2 q = pcell b q

/-- The row-0 scan of `prepareAdventurePhase` (`src/game.ts` lines 346-351):
index of the first cell of row 0 that is neither `HAZARD` nor `EMPTY`
(`getCell` comparisons, so an out-of-bounds read compares the `undefined`
sentinel, exactly as the JavaScript does). -/
def scanRow0 (b : Board) : Option Nat :=
  (List.range b.width).find? fun x =>
    !(b.getCell (Int.ofNat x) 0 == some TerrainType.HAZARD)
      && !(b.getCell (Int.ofNat x) 0 == some TerrainType.EMPTY)

/-- The player position after the row-0 scan: the found cell, or the
previous position when nothing matched (the loop assigns only on a hit). -/
def afterScan (b : Board) (prev : Pos) : Pos :=
  match scanRow0 b with
  | some x => (Int.ofNat x, 0)
  | none => prev

/-- The fallback-detection condition of `prepareAdventurePhase`
(`src/game.ts` line 354): `!playerPosition.x && !playerPosition.y`, that
is, the post-scan position equals the origin. -/
def usesFallback (b : Board) (prev : Pos) : Bool :=
  (afterScan b prev).1 == 0 && (afterScan b prev).2 == 0

/-- The rejection-sampling fallback of `prepareAdventurePhase`
(`src/game.ts` lines 355-360), fed a pre-drawn stream of samples: the
first sample whose cell is not `HAZARD` (`none` models the do-while loop
never accepting a sample from the given stream). -/
def fallbackSpawn (b : Board) (rng : List Pos) : Option Pos :=
  rng.find? fun p => !(b.getCell p.1 p.2 == some TerrainType.HAZARD)

/-- The spawn part of `prepareAdventurePhase` (`src/game.ts` lines
344-361): the scan result, overridden by the fallback sampler whenever the
fallback condition fires. -/
def spawnPlayer (b : Board) (prev : Pos) (rng : List Pos) : Option Pos :=
  if usesFallback b prev then fallbackSpawn b rng else some (afterScan b prev)

/-- The adventure-phase game state: the module-level mutable variables of
`src/game.ts` that the adventure loop reads and writes. -/
structure GState where
  board : Board
  score : Int
  playerPosition : Pos
  enemies : List Pos
  treasures : List (Pos × Int)
deriving DecidableEq, Repr

/-- The all-Empty grid built by the `GameBoard` constructor
(`src/gameBoard.ts` lines 8-12). -/
def emptyBoard (w h : Nat) : Board :=
  ⟨w, h, List.replicate h (List.replicate w TerrainType.EMPTY)⟩

/-- `switchPhase` leaving the adventure (`src/game.ts` lines 317-339):
fresh empty board, score reset to 0. -/
def switchToBuilding (s : GState) : GState :=
  { s with board := emptyBoard s.board.width s.board.height, score := 0 }

/-- Removal of the first treasure at a cell: the `findIndex` plus
`splice(index, 1)` pair of `movePlayer` (`src/game.ts` lines 418-423). -/
def removeTreasureAt (ts : List (Pos × Int)) (x y : Int) : List (Pos × Int) :=
  match ts with
  | [] => []
  | t :: rest =>
    if t.1.1 = x ∧ t.1.2 = y then rest else t :: removeTreasureAt rest x y

/-- `movePlayer` of `src/game.ts` (lines 393-450) as a state transition:
bounds check, traversability check, enemy-encounter penalty (with clamp to
0), treasure collection, the move itself, safe-haven bonus, and the
bottom-row phase switch.  The asynchronous enemy tick scheduled at the end
is a separate transition (`moveEnemies`). -/
def movePlayer (s : GState) (dx dy : Int) : GState :=
  let newX := s.playerPosition.1 + dx
  let newY := s.playerPosition.2 + dy
  if ¬ s.board.isPositionValid newX newY = true then s
  else if s.board.getCell newX newY = some TerrainType.EMPTY
      ∨ s.board.getCell newX newY = some TerrainType.HAZARD then s
  else if (s.enemies.any fun e => e.1 == newX && e.2 == newY) = true then
    { s with score := if s.score - 50 < 0 then 0 else s.score - 50 }
  else
    let s1 :=
      match s.treasures.find? fun t => t.1.1 == newX && t.1.2 == newY with
      | some t => { s with score := s.score + t.2,
                           treasures := removeTreasureAt s.treasures newX newY }
      | none => s
    let s2 := { s1 with playerPosition := (newX, newY) }
    let s3 := if s2.board.getCell newX newY = some TerrainType.SAFE_HAVEN then
        { s2 with score := s2.score + 100 }
      else s2
    if newY = (s.board.height : Int) - 1 then switchToBuilding s3 else s3

/-- The enemy loop of `moveEnemies` (`src/game.ts` lines 452-487): each
enemy consumes one random draw (`rand i`; `true` is the 70% branch that
steps along x), steps only onto in-bounds non-Empty non-Hazard cells, and
on colliding with the player applies the 100-point penalty (clamped at 0)
instead of moving. -/
def moveEnemiesAux (bd : Board) (pl : Pos) (rand : Nat → Bool) :
    Nat → List Pos → Int → List Pos × Int
  | _, [], sc => ([], sc)
  | i, e :: es, sc =>
    let dx := pl.1 - e.1
    let dy := pl.2 - e.2
    let moveX : Int := if rand i then (if dx ≠ 0 then (if 0 < dx then 1 else -1) else 0) else 0
    let moveY : Int := if rand i then 0 else (if dy ≠ 0 then (if 0 < dy then 1 else -1) else 0)
    let newX := e.1 + moveX
    let newY := e.2 + moveY
    if bd.isPositionValid newX newY = true
        ∧ bd.getCell newX newY ≠ some TerrainType.EMPTY
        ∧ bd.getCell newX newY ≠ some TerrainType.HAZARD then
      if newX = pl.1 ∧ newY = pl.2 then
        let r := moveEnemiesAux bd pl rand (i + 1) es (if sc - 100 < 0 then 0 else sc - 100)
        (e :: r.1, r.2)
      else
        let r := moveEnemiesAux bd pl rand (i + 1) es sc
        ((newX, newY) :: r.1, r.2)
    else
      let r := moveEnemiesAux bd pl rand (i + 1) es sc
      (e :: r.1, r.2)

/-- `moveEnemies` of `src/game.ts` as a state transition. -/
def moveEnemies (s : GState) (rand : Nat → Bool) : GState :=
  let r := moveEnemiesAux s.board s.playerPosition rand 0 s.enemies s.score
  { s with enemies := r.1, score := r.2 }

/-- The score-touching operations of the game loop: a player move, an
enemy tick, the line-completion bonus of `placePiece`
(`score += completedLines.length * 100`), and the phase-switch reset. -/
inductive GOp where
  | move (dx dy : Int)
  | tick (rand : Nat → Bool)
  | lines (n : Nat)
  | reset

/-- Apply one operation to the game state. -/
def applyOp (s : GState) : GOp → GState
  | GOp.move dx dy => movePlayer s dx dy
  | GOp.tick rand => moveEnemies s rand
  | GOp.lines n => { s with score := s.score + (n : Int) * 100 }
  | GOp.reset => switchToBuilding s

/-- Run a sequence of operations. -/
def runOps (s : GState) (ops : List GOp) : GState := ops.foldl applyOp s

/-- The score invariant: the score is nonnegative and every held treasure
has a nonnegative value (the source only ever creates treasures of value
50). -/
def ScoreInv (s : GState) : Prop :=
  0 ≤ s.score ∧ ∀ t ∈ s.treasures, 0 ≤ t.2

instance (s : GState) : Decidable (ScoreInv s) := by
  unfold ScoreInv; infer_instance

/-- Entry `(i, k)` of a shape matrix (row `i`, column `k`), with the same
out-of-range defaults as the raw reads. -/
def entry (m : List (List Nat)) (i k : Nat) : Nat :=
  (m.getD i []).getD k 0

theorem mem_allCells {b : Board} {p : Pos} : p ∈ allCells b ↔ inB b p := by
  unfold allCells inB
  constructor
  · rintro h
    simp only [Finset.mem_image, Finset.mem_product, Finset.mem_range] at h
    obtain ⟨⟨qx, qy⟩, ⟨hx, hy⟩, rfl⟩ := h
    refine ⟨Int.ofNat_nonneg qx, ?_, Int.ofNat_nonneg qy, ?_⟩ <;> simp_all
  · rintro ⟨h1, h2, h3, h4⟩
    simp only [Finset.mem_image, Finset.mem_product, Finset.mem_range]
    refine ⟨(p.1.toNat, p.2.toNat), ⟨?_, ?_⟩, ?_⟩
    · omega
    · omega
    · simp only [Prod.ext_iff]
      constructor <;> simp [Int.toNat_of_nonneg, h1, h3]


theorem setRaw_width (b : Board) (x y : Nat) (t : TerrainType) :
    (setRaw b x y t).width = b.width := rfl

theorem setRaw_height (b : Board) (x y : Nat) (t : TerrainType) :
    (setRaw b x y t).height = b.height := rfl

theorem setRaw_WF {b : Board} (hwf : b.WF) (x y : Nat) (t : TerrainType) :
    (setRaw b x y t).WF := by
  obtain ⟨hlen, hrows⟩ := hwf
  refine ⟨by simp [setRaw, hlen], ?_⟩
  intro row hrow
  simp only [setRaw] at hrow
  by_cases hy : y < b.grid.length
  · rcases List.mem_or_eq_of_mem_set hrow with h | h
    · exact hrows row h
    · subst h
      rw [List.length_set, List.getD_eq_getElem b.grid [] hy]
      exact hrows _ (List.getElem_mem hy)
  · rw [List.set_eq_of_length_le (by omega)] at hrow
    exact hrows row hrow


theorem getD_set {α : Type} (l : List α) (i j : Nat) (a d : α) :
    (l.set i a).getD j d = if i = j ∧ i < l.length then a else l.getD j d := by
  by_cases hj : j < l.length
  · rw [List.getD_eq_getElem _ d (by rw [List.length_set]; omega), List.getElem_set]
    by_cases hij : i = j
    · subst hij
      simp [hj]
    · simp only [hij, false_and, if_false]
      rw [List.getD_eq_getElem _ d hj]
  · have hcond : ¬(i = j ∧ i < l.length) := by omega
    rw [List.getD_eq_default _ d (by rw [List.length_set]; omega),
      List.getD_eq_default _ d (by omega)]
    simp [hcond]

theorem cellAt_setRaw {b : Board} (hwf : b.WF) {x y x2 y2 : Nat}
    (hp : inBN b x y) (t : TerrainType) :
    cellAt (setRaw b x y t) x2 y2
      = if x2 = x ∧ y2 = y then t else cellAt b x2 y2 := by
  obtain ⟨hlen, hrows⟩ := hwf
  obtain ⟨hx, hy⟩ := hp
  have hylen : y < b.grid.length := by omega
  have hrowy : (b.grid.getD y []).length = b.width := by
    rw [List.getD_eq_getElem b.grid [] hylen]
    exact hrows _ (List.getElem_mem hylen)
  simp only [cellAt, setRaw]
  rw [getD_set]
  by_cases hy2 : y2 = y
  · subst hy2
    rw [if_pos ⟨rfl, hylen⟩, getD_set]
    by_cases hx2 : x2 = x
    · subst hx2
      rw [if_pos ⟨rfl, by omega⟩, if_pos ⟨rfl, rfl⟩]
    · have hcx : ¬(x = x2 ∧ x < (b.grid.getD y2 []).length) := fun h => hx2 h.1.symm
      have hrhs : ¬(x2 = x ∧ y2 = y2) := fun h => hx2 h.1
      rw [if_neg hcx, if_neg hrhs]
  · have hcy : ¬(y = y2 ∧ y < b.grid.length) := fun h => hy2 h.1.symm
    have hrhs : ¬(x2 = x ∧ y2 = y) := fun h => hy2 h.2
    rw [if_neg hcy, if_neg hrhs]

theorem inB_toNat {b : Board} {p : Pos} (hp : inB b p) :
    inBN b p.1.toNat p.2.toNat := by
  obtain ⟨h1, h2, h3, h4⟩ := hp
  constructor <;> omega

theorem toNat_inj_of_inB {b : Board} {p q : Pos} (hp : inB b p) (hq : inB b q)
    (h1 : p.1.toNat = q.1.toNat) (h2 : p.2.toNat = q.2.toNat) : p = q := by
  obtain ⟨hp1, _, hp3, _⟩ := hp
  obtain ⟨hq1, _, hq3, _⟩ := hq
  have e1 : p.1 = q.1 := by omega
  have e2 : p.2 = q.2 := by omega
  exact Prod.ext e1 e2

theorem pcell_setRaw {b : Board} (hwf : b.WF) {p q : Pos}
    (hp : inB b p) (hq : inB b q) (t : TerrainType) :
    pcell (setRaw b p.1.toNat p.2.toNat t) q = if q = p then t else pcell b q := by
  unfold pcell
  rw [cellAt_setRaw hwf (inB_toNat hp) t]
  by_cases hqp : q = p
  · simp [hqp]
  · have : ¬(q.1.toNat = p.1.toNat ∧ q.2.toNat = p.2.toNat) := by
      intro ⟨e1, e2⟩
      exact hqp (toNat_inj_of_inB hq hp e1 e2)
    simp [hqp, this]

/-- Writing `HAZARD` to every cell of a list `l` of in-bounds positions:
the write function of the hazard-marking loop. -/
theorem pcell_hazardList {b : Board} (hwf : b.WF) {l : List Pos}
    (hl : ∀ c ∈ l, inB b c) {q : Pos} (hq : inB b q) :
    pcell (l.foldl (fun bb c => setRaw bb c.1.toNat c.2.toNat TerrainType.HAZARD) b) q
      = if q ∈ l then TerrainType.HAZARD else pcell b q := by
  induction l generalizing b with
  | nil => simp
  | cons c l ih =>
    have hcb : inB b c := hl c (List.mem_cons_self c l)
    have hwf2 : (setRaw b c.1.toNat c.2.toNat TerrainType.HAZARD).WF := setRaw_WF hwf _ _ _
    have hdims : ∀ r : Pos, inB (setRaw b c.1.toNat c.2.toNat TerrainType.HAZARD) r ↔ inB b r := by
      intro r
      simp [inB, setRaw]
    simp only [List.foldl_cons]
    rw [ih hwf2 (fun c2 hc2 => (hdims c2).mpr (hl c2 (List.mem_cons_of_mem c hc2)))
      ((hdims q).mpr hq)]
    rw [pcell_setRaw hwf hcb hq]
    by_cases h1 : q ∈ l
    · simp [h1]
    · by_cases h2 : q = c <;> simp [h1, h2]

theorem hazardList_width (b : Board) (l : List Pos) :
    (l.foldl (fun bb c => setRaw bb c.1.toNat c.2.toNat TerrainType.HAZARD) b).width
      = b.width := by
  induction l generalizing b with
  | nil => rfl
  | cons c l ih =>
    rw [List.foldl_cons, ih]
    rfl

theorem hazardList_height (b : Board) (l : List Pos) :
    (l.foldl (fun bb c => setRaw bb c.1.toNat c.2.toNat TerrainType.HAZARD) b).height
      = b.height := by
  induction l generalizing b with
  | nil => rfl
  | cons c l ih =>
    rw [List.foldl_cons, ih]
    rfl

theorem hazardList_WF {b : Board} (hwf : b.WF) (l : List Pos) :
    (l.foldl (fun bb c => setRaw bb c.1.toNat c.2.toNat TerrainType.HAZARD) b).WF := by
  induction l generalizing b with
  | nil => exact hwf
  | cons c l ih => exact ih (setRaw_WF hwf _ _ _)


theorem adj_symm {p q : Pos} (h : adj p q) : adj q p := by
  unfold adj at *
  rcases h with h | h | h | h <;> subst h <;> simp [Prod.ext_iff]

theorem reachAvoid_mono {b : Board} {V W : Finset Pos} (hVW : V ⊆ W) {p q : Pos}
    (h : ReachAvoid b W p q) : ReachAvoid b V p q := by
  refine Relation.ReflTransGen.mono ?_ h
  rintro x y ⟨ha, hg, hv⟩
  exact ⟨ha, hg, fun hx => hv (hVW hx)⟩

theorem reachAvoid_good {b : Board} {V : Finset Pos} {p q : Pos}
    (h : ReachAvoid b V p q) : p = q ∨ (Good b q ∧ q ∉ V) := by
  induction h with
  | refl => exact Or.inl rfl
  | tail _ hstep _ => exact Or.inr ⟨hstep.2.1, hstep.2.2⟩

/-- Cutting lemma: a walk avoiding `V` either avoids `c` as well, or can be
restarted at `c` avoiding `insert c V`. -/
theorem reachAvoid_insert {b : Board} {V : Finset Pos} {c p q : Pos}
    (h : ReachAvoid b V p q) :
    ReachAvoid b (insert c V) p q ∨ ReachAvoid b (insert c V) c q := by
  induction h with
  | refl => exact Or.inl Relation.ReflTransGen.refl
  | tail hpx hstep ih =>
    rename_i x y
    obtain ⟨ha, hg, hv⟩ := hstep
    by_cases hyc : y = c
    · subst hyc
      exact Or.inr Relation.ReflTransGen.refl
    · have hstep2 : Step b (insert c V) x y :=
        ⟨ha, hg, by simp [Finset.mem_insert, hyc, hv]⟩
      rcases ih with ih | ih
      · exact Or.inl (ih.tail hstep2)
      · exact Or.inr (ih.tail hstep2)

theorem reach_trans {b : Board} {p q r : Pos} (h1 : Reach b p q) (h2 : Reach b q r) :
    Reach b p r :=
  Relation.ReflTransGen.trans h1 h2

theorem reach_symm {b : Board} {p q : Pos} (hp : Good b p) (h : Reach b p q) :
    Reach b q p := by
  induction h with
  | refl => exact Relation.ReflTransGen.refl
  | tail hxy hstep ih =>
    rename_i x y
    rcases reachAvoid_good hxy with heq | hgx
    · subst heq
      exact Relation.ReflTransGen.single ⟨adj_symm hstep.1, hp, by simp⟩
    · exact Relation.ReflTransGen.head ⟨adj_symm hstep.1, hgx.1, by simp⟩ ih

theorem compSet_eq_of_reach {b : Board} {p q : Pos} (hp : Good b p) (h : Reach b p q) :
    compSet b q = compSet b p := by
  ext r
  simp only [compSet, Set.mem_setOf_eq]
  exact ⟨fun hr => reach_trans h hr, fun hr => reach_trans (reach_symm hp h) hr⟩

theorem good_of_mem_compSet {b : Board} {p q : Pos} (hp : Good b p)
    (h : q ∈ compSet b p) : Good b q := by
  rcases reachAvoid_good h with heq | hg
  · exact heq ▸ hp
  · exact hg.1


theorem mem_nbrl {c m : Pos} : m ∈ nbrl c ↔ adj c m := by
  simp only [nbrl, adj, List.mem_cons, List.not_mem_nil, or_false]
  tauto

theorem stackReach_nil {b : Board} {V : Finset Pos} : stackReach b V [] = ∅ := by
  ext q
  simp [stackReach]

theorem stackReach_cons_junk {b : Board} {V : Finset Pos} {c : Pos} {rest : List Pos}
    (h : ¬(Good b c ∧ c ∉ V)) :
    stackReach b V (c :: rest) = stackReach b V rest := by
  ext q
  simp only [stackReach, Set.mem_setOf_eq, List.mem_cons]
  constructor
  · rintro ⟨s, hs | hs, hg, hv, hr⟩
    · exact absurd ⟨hs ▸ hg, hs ▸ hv⟩ h
    · exact ⟨s, hs, hg, hv, hr⟩
  · rintro ⟨s, hs, hg, hv, hr⟩
    exact ⟨s, Or.inr hs, hg, hv, hr⟩

theorem stackReach_mark {b : Board} {V : Finset Pos} {c : Pos} {rest : List Pos}
    (hc : Good b c) (hcV : c ∉ V) :
    (↑V : Set Pos) ∪ stackReach b V (c :: rest)
      = ↑(insert c V) ∪ stackReach b (insert c V) (nbrl c ++ rest) := by
  have fromC : ∀ q, ReachAvoid b (insert c V) c q →
      q = c ∨ q ∈ stackReach b (insert c V) (nbrl c ++ rest) := by
    intro q h3
    rcases Relation.ReflTransGen.cases_head h3 with heq | ⟨m, hstep, hrest⟩
    · exact Or.inl heq.symm
    · obtain ⟨hadj, hgm, hmv⟩ := hstep
      exact Or.inr ⟨m, by simp [List.mem_append, mem_nbrl, hadj], hgm, hmv, hrest⟩
  ext q
  simp only [Set.mem_union, Finset.coe_insert, Set.mem_insert_iff, Finset.mem_coe]
  constructor
  · rintro (hq | hq)
    · exact Or.inl (Or.inr hq)
    · obtain ⟨s, hs, hgs, hsv, hr⟩ := hq
      by_cases hsc : s = c
      · subst hsc
        rcases reachAvoid_insert (c := s) hr with h2 | h2 <;>
          · rcases fromC q h2 with h3 | h3
            · exact Or.inl (Or.inl h3)
            · exact Or.inr h3
      · rcases reachAvoid_insert (c := c) hr with h2 | h2
        · have hsrest : s ∈ rest := by
            rcases List.mem_cons.mp hs with h | h
            · exact absurd h hsc
            · exact h
          refine Or.inr ⟨s, by simp [hsrest], hgs, ?_, h2⟩
          simp [Finset.mem_insert, hsc, hsv]
        · rcases fromC q h2 with h3 | h3
          · exact Or.inl (Or.inl h3)
          · exact Or.inr h3
  · rintro (hq | hq)
    · rcases hq with rfl | hq
      · exact Or.inr ⟨q, by simp, hc, hcV, Relation.ReflTransGen.refl⟩
      · exact Or.inl hq
    · obtain ⟨s, hs, hgs, hsv, hr⟩ := hq
      have hsv2 : s ∉ V := fun h => hsv (Finset.mem_insert_of_mem h)
      have hr2 : ReachAvoid b V s q := reachAvoid_mono (Finset.subset_insert c V) hr
      rcases List.mem_append.mp hs with hnb | hrest
      · have hadj : adj c s := mem_nbrl.mp hnb
        exact Or.inr ⟨c, by simp, hc, hcV,
          Relation.ReflTransGen.head ⟨hadj, hgs, hsv2⟩ hr2⟩
      · exact Or.inr ⟨s, by simp [hrest], hgs, hsv2, hr2⟩

/-- Full correctness of the flood-fill loop: the final visited set is the
initial one plus everything reachable from a good unvisited stack entry,
and the cluster list enumerates (without duplicates) the initial cluster
plus the newly visited cells. -/
theorem floodLoop_spec (b : Board) :
    ∀ (V : Finset Pos) (S C : List Pos), C.Nodup → (∀ q ∈ C, q ∈ V) →
      (↑(floodLoop b V S C).1 : Set Pos) = ↑V ∪ stackReach b V S
      ∧ V ⊆ (floodLoop b V S C).1
      ∧ (floodLoop b V S C).2.Nodup
      ∧ (floodLoop b V S C).2.toFinset = C.toFinset ∪ ((floodLoop b V S C).1 \ V) := by
  intro V S C
  induction V, S, C using floodLoop.induct b with
  | case1 V C =>
    intro hnd hCV
    simp only [floodLoop]
    refine ⟨by simp [stackReach_nil], Finset.Subset.refl V, hnd, ?_⟩
    ext q
    simp only [Finset.mem_union, Finset.mem_sdiff, List.mem_toFinset]
    tauto
  | case2 V C c rest hguard ih =>
    intro hnd hCV
    have heq : floodLoop b V (c :: rest) C = floodLoop b V rest C := by
      rw [floodLoop]
      simp [hguard]
    have hjunk : ¬(Good b c ∧ c ∉ V) := by
      unfold Good
      tauto
    rw [heq, stackReach_cons_junk hjunk]
    exact ih hnd hCV
  | case3 V C c rest hguard ih =>
    intro hnd hCV
    have hgc : Good b c := by
      unfold Good
      tauto
    have hcV : c ∉ V := by tauto
    have hcC : c ∉ C := fun h => hcV (hCV c h)
    have hnd2 : (C ++ [c]).Nodup := by
      simp only [List.nodup_append, List.nodup_cons, List.nodup_nil]
      refine ⟨hnd, by simp, by simp [List.disjoint_singleton, hcC]⟩
    have hCV2 : ∀ q ∈ C ++ [c], q ∈ insert c V := by
      intro q hq
      rcases List.mem_append.mp hq with h | h
      · exact Finset.mem_insert_of_mem (hCV q h)
      · simp only [List.mem_singleton] at h
        simp [h]
    obtain ⟨ih1, ih2, ih3, ih4⟩ := ih hnd2 hCV2
    have heq : floodLoop b V (c :: rest) C
        = floodLoop b (insert c V)
            ((c.1, c.2 - 1) :: (c.1, c.2 + 1) :: (c.1 - 1, c.2) :: (c.1 + 1, c.2) :: rest)
            (C ++ [c]) := by
      rw [floodLoop]
      simp [hguard]
    have hstacks : (c.1, c.2 - 1) :: (c.1, c.2 + 1) :: (c.1 - 1, c.2) :: (c.1 + 1, c.2) :: rest
        = nbrl c ++ rest := rfl
    rw [heq]
    set r := floodLoop b (insert c V)
        ((c.1, c.2 - 1) :: (c.1, c.2 + 1) :: (c.1 - 1, c.2) :: (c.1 + 1, c.2) :: rest)
        (C ++ [c]) with hr
    rw [hstacks] at ih1
    have hcr : c ∈ r.1 := ih2 (Finset.mem_insert_self c V)
    refine ⟨?_, ?_, ih3, ?_⟩
    · rw [ih1, stackReach_mark hgc hcV]
    · exact fun q hq => ih2 (Finset.mem_insert_of_mem hq)
    · rw [ih4]
      ext q
      simp only [List.toFinset_append, List.toFinset_cons, List.toFinset_nil,
        Finset.mem_union, Finset.mem_sdiff, Finset.mem_insert,
        Finset.mem_singleton, List.mem_toFinset]
      by_cases hqc : q = c
      · subst hqc
        simp only [hcr, hcV, hcC]
        tauto
      · simp only [hqc]
        tauto

/-- From a good seed outside a component-closed visited set, avoiding the
visited set does not restrict reachability, and nothing reached is
visited. -/
theorem reachAvoid_of_reach {b : Board} {V : Finset Pos} {p q : Pos}
    (hp : Good b p) (hpV : p ∉ V)
    (hclosed : ∀ r ∈ V, ∀ s, Reach b r s → s ∈ V) (h : Reach b p q) :
    ReachAvoid b V p q ∧ q ∉ V := by
  induction h with
  | refl => exact ⟨Relation.ReflTransGen.refl, hpV⟩
  | tail hpx hstep ih =>
    rename_i x y
    obtain ⟨ihr, ihx⟩ := ih
    have hyV : y ∉ V := by
      intro hy
      exact hpV (hclosed y hy p (reach_symm hp (hpx.tail hstep)))
    exact ⟨ihr.tail ⟨hstep.1, hstep.2.1, hyV⟩, hyV⟩

theorem stackReach_single {b : Board} {V : Finset Pos} {p : Pos}
    (hp : Good b p) (hpV : p ∉ V)
    (hclosed : ∀ r ∈ V, ∀ s, Reach b r s → s ∈ V) :
    stackReach b V [p] = compSet b p := by
  ext q
  simp only [stackReach, compSet, Set.mem_setOf_eq, List.mem_singleton]
  constructor
  · rintro ⟨s, rfl, _, _, hr⟩
    exact reachAvoid_mono (Finset.empty_subset V) hr
  · intro h
    exact ⟨p, rfl, hp, hpV, (reachAvoid_of_reach hp hpV hclosed h).1⟩

theorem compSet_disjoint {b : Board} {V : Finset Pos} {p : Pos}
    (hp : Good b p) (hpV : p ∉ V)
    (hclosed : ∀ r ∈ V, ∀ s, Reach b r s → s ∈ V) :
    ∀ q ∈ compSet b p, q ∉ V := by
  intro q hq
  exact (reachAvoid_of_reach hp hpV hclosed hq).2

/-- Two boards with the same dimensions that agree outside `V` induce the
same avoiding-step relation. -/
theorem good_congr {b b2 : Board} (hw : b2.width = b.width) (hh : b2.height = b.height)
    {V : Finset Pos} (hagree : ∀ q, inB b q → q ∉ V → pcell b2 q = pcell b q)
    {r : Pos} (hr : r ∉ V) : Good b2 r ↔ Good b r := by
  have hin : inB b2 r ↔ inB b r := by
    unfold inB
    rw [hw, hh]
  unfold Good
  constructor
  · rintro ⟨h1, h2⟩
    have hb : inB b r := hin.mp h1
    exact ⟨hb, by rw [← hagree r hb hr]; exact h2⟩
  · rintro ⟨h1, h2⟩
    exact ⟨hin.mpr h1, by rw [hagree r h1 hr]; exact h2⟩

theorem reachAvoid_congr {b b2 : Board} (hw : b2.width = b.width)
    (hh : b2.height = b.height) {V : Finset Pos}
    (hagree : ∀ q, inB b q → q ∉ V → pcell b2 q = pcell b q) {p q : Pos} :
    ReachAvoid b2 V p q ↔ ReachAvoid b V p q := by
  constructor <;>
    · refine Relation.ReflTransGen.mono ?_
      rintro x y ⟨ha, hg, hv⟩
      refine ⟨ha, ?_, hv⟩
      first
        | exact (good_congr hw hh hagree hv).mp hg
        | exact (good_congr hw hh hagree hv).mpr hg

theorem stackReach_congr {b b2 : Board} (hw : b2.width = b.width)
    (hh : b2.height = b.height) {V : Finset Pos}
    (hagree : ∀ q, inB b q → q ∉ V → pcell b2 q = pcell b q) (S : List Pos) :
    stackReach b2 V S = stackReach b V S := by
  ext q
  simp only [stackReach, Set.mem_setOf_eq]
  constructor <;>
    · rintro ⟨s, hs, hg, hv, hr⟩
      refine ⟨s, hs, ?_, hv, ?_⟩
      · first
          | exact (good_congr hw hh hagree hv).mp hg
          | exact (good_congr hw hh hagree hv).mpr hg
      · first
          | exact (reachAvoid_congr hw hh hagree).mp hr
          | exact (reachAvoid_congr hw hh hagree).mpr hr


theorem hazardStep_spec {b : Board} {st : Board × Finset Pos}
    (inv : HazInv b st.1 st.2) {p : Pos} (hpin : inB b p) :
    HazInv b (hazardStep st p).1 (hazardStep st p).2
    ∧ st.2 ⊆ (hazardStep st p).2
    ∧ (Good b p → p ∈ (hazardStep st p).2) := by
  obtain ⟨b2, V⟩ := st
  simp only at inv ⊢
  by_cases hguard : pcell b2 p = TerrainType.EMPTY ∧ p ∉ V
  case neg =>
    rw [hazardStep, if_neg hguard]
    refine ⟨inv, Finset.Subset.refl V, ?_⟩
    intro hgp
    by_cases hpV : p ∈ V
    · exact hpV
    · exact absurd ⟨by rw [inv.offV p hpin hpV]; exact hgp.2, hpV⟩ hguard
  case pos =>
    obtain ⟨hpe, hpV⟩ := hguard
    have hgp : Good b p := ⟨hpin, by rw [← inv.offV p hpin hpV]; exact hpe⟩
    obtain ⟨r1eq, rsub, rnd, rset⟩ := floodLoop_spec b2 V [p] [] List.nodup_nil (by simp)
    have hinB2 : ∀ q : Pos, inB b2 q ↔ inB b q := by
      intro q
      unfold inB
      rw [inv.hw, inv.hh]
    have hsr : stackReach b2 V [p] = compSet b p := by
      rw [stackReach_congr inv.hw inv.hh inv.offV]
      exact stackReach_single hgp hpV inv.closed
    have hstep_eq : hazardStep (b2, V) p
        = if 0 < (floodLoop b2 V [p] []).2.length ∧ (floodLoop b2 V [p] []).2.length ≤ 3 then
            ((floodLoop b2 V [p] []).2.foldl
              (fun bb q => setRaw bb q.1.toNat q.2.toNat TerrainType.HAZARD) b2,
             (floodLoop b2 V [p] []).1)
          else (b2, (floodLoop b2 V [p] []).1) := by
      rw [hazardStep, if_pos ⟨hpe, hpV⟩]
    rw [hstep_eq]
    set r := floodLoop b2 V [p] [] with hrdef
    have h1set : (↑r.1 : Set Pos) = ↑V ∪ compSet b p := by rw [r1eq, hsr]
    have hmem1 : ∀ q : Pos, q ∈ r.1 ↔ (q ∈ V ∨ q ∈ compSet b p) := by
      intro q
      rw [← Finset.mem_coe, h1set]
      simp
    have hdisj : ∀ q ∈ compSet b p, q ∉ V := compSet_disjoint hgp hpV inv.closed
    have hcompgood : ∀ q ∈ compSet b p, Good b q := fun q hq => good_of_mem_compSet hgp hq
    have hclset : (↑r.2.toFinset : Set Pos) = compSet b p := by
      rw [rset]
      simp only [List.toFinset_nil, Finset.empty_union, Finset.coe_sdiff, h1set]
      ext q
      simp only [Set.mem_diff, Set.mem_union, Finset.mem_coe]
      constructor
      · rintro ⟨hq | hq, hnv⟩
        · exact absurd hq hnv
        · exact hq
      · intro hq
        exact ⟨Or.inr hq, hdisj q hq⟩
    have hlen : r.2.length = (compSet b p).ncard := by
      rw [← List.toFinset_card_of_nodup rnd, ← Set.ncard_coe_Finset, hclset]
    have hmemr2 : ∀ q : Pos, q ∈ r.2 ↔ q ∈ compSet b p := by
      intro q
      rw [← List.mem_toFinset, ← Finset.mem_coe, hclset]
    have hpcomp : p ∈ compSet b p := Relation.ReflTransGen.refl
    have hpos : 0 < r.2.length :=
      List.length_pos.mpr (List.ne_nil_of_mem ((hmemr2 p).mpr hpcomp))
    have hclin : ∀ c ∈ r.2, inB b2 c := by
      intro c hc
      exact (hinB2 c).mpr (hcompgood c ((hmemr2 c).mp hc)).1
    by_cases hsmall : r.2.length ≤ 3
    · rw [if_pos ⟨hpos, hsmall⟩]
      have hsz : (compSet b p).ncard ≤ 3 := hlen ▸ hsmall
      refine ⟨?_, rsub, fun _ => (hmem1 p).mpr (Or.inr hpcomp)⟩
      refine ⟨?_, ?_, hazardList_WF inv.hwf r.2, ?_, ?_, ?_, ?_⟩
      · rw [hazardList_width]
        exact inv.hw
      · rw [hazardList_height]
        exact inv.hh
      · intro q hq
        rcases (hmem1 q).mp hq with h | h
        · exact inv.goodV q h
        · exact hcompgood q h
      · intro q hq s hr
        rcases (hmem1 q).mp hq with h | h
        · exact (hmem1 s).mpr (Or.inl (inv.closed q h s hr))
        · exact (hmem1 s).mpr (Or.inr (reach_trans h hr))
      · intro q hq
        rcases (hmem1 q).mp hq with h | h
        · have hq2 : q ∉ r.2 := fun hc => hdisj q ((hmemr2 q).mp hc) h
          rw [pcell_hazardList inv.hwf hclin ((hinB2 q).mpr (inv.goodV q h).1),
            if_neg hq2]
          exact inv.onV q h
        · have hq2 : q ∈ r.2 := (hmemr2 q).mpr h
          rw [pcell_hazardList inv.hwf hclin ((hinB2 q).mpr (hcompgood q h).1),
            if_pos hq2, compSet_eq_of_reach hgp h, if_pos hsz]
      · intro q hqin hqnot
        have hq2 : q ∉ r.2 := fun hc => hqnot ((hmem1 q).mpr (Or.inr ((hmemr2 q).mp hc)))
        have hqV : q ∉ V := fun hc => hqnot ((hmem1 q).mpr (Or.inl hc))
        rw [pcell_hazardList inv.hwf hclin ((hinB2 q).mpr hqin), if_neg hq2]
        exact inv.offV q hqin hqV
    · rw [if_neg (fun hc => hsmall hc.2)]
      have hsz : ¬ (compSet b p).ncard ≤ 3 := hlen ▸ hsmall
      refine ⟨?_, rsub, fun _ => (hmem1 p).mpr (Or.inr hpcomp)⟩
      refine ⟨inv.hw, inv.hh, inv.hwf, ?_, ?_, ?_, ?_⟩
      · intro q hq
        rcases (hmem1 q).mp hq with h | h
        · exact inv.goodV q h
        · exact hcompgood q h
      · intro q hq s hr
        rcases (hmem1 q).mp hq with h | h
        · exact (hmem1 s).mpr (Or.inl (inv.closed q h s hr))
        · exact (hmem1 s).mpr (Or.inr (reach_trans h hr))
      · intro q hq
        rcases (hmem1 q).mp hq with h | h
        · exact inv.onV q h
        · rw [compSet_eq_of_reach hgp h, if_neg hsz]
          rw [inv.offV q (hcompgood q h).1 (hdisj q h)]
          exact (hcompgood q h).2
      · intro q hqin hqnot
        exact inv.offV q hqin (fun hc => hqnot ((hmem1 q).mpr (Or.inl hc)))

theorem hazardFold_spec {b : Board} :
    ∀ (L : List Pos) (st : Board × Finset Pos), HazInv b st.1 st.2 →
      (∀ p ∈ L, inB b p) →
      HazInv b (L.foldl hazardStep st).1 (L.foldl hazardStep st).2
      ∧ st.2 ⊆ (L.foldl hazardStep st).2
      ∧ (∀ p ∈ L, Good b p → p ∈ (L.foldl hazardStep st).2) := by
  intro L
  induction L with
  | nil =>
    intro st inv _
    exact ⟨inv, Finset.Subset.refl _, by simp⟩
  | cons p L ih =>
    intro st inv hin
    have hpin : inB b p := hin p (List.mem_cons_self p L)
    obtain ⟨inv2, hsub2, hp2⟩ := hazardStep_spec inv hpin
    obtain ⟨inv3, hsub3, hp3⟩ :=
      ih (hazardStep st p) inv2 (fun q hq => hin q (List.mem_cons_of_mem p hq))
    simp only [List.foldl_cons]
    refine ⟨inv3, hsub2.trans hsub3, ?_⟩
    intro q hq hgq
    rcases List.mem_cons.mp hq with h | h
    · subst h
      exact hsub3 (hp2 hgq)
    · exact hp3 q h hgq

theorem mem_allPositions {b : Board} {p : Pos} : p ∈ allPositions b ↔ inB b p := by
  constructor
  · intro h
    unfold allPositions at h
    obtain ⟨y, hy, hp⟩ := List.mem_flatMap.mp h
    obtain ⟨x, hx, rfl⟩ := List.mem_map.mp hp
    rw [List.mem_range] at hx hy
    refine ⟨Int.ofNat_nonneg x, ?_, Int.ofNat_nonneg y, ?_⟩
    · show (x : Int) < (b.width : Int)
      exact_mod_cast hx
    · show (y : Int) < (b.height : Int)
      exact_mod_cast hy
  · intro hp
    obtain ⟨h1, h2, h3, h4⟩ := hp
    unfold allPositions
    apply List.mem_flatMap.mpr
    refine ⟨p.2.toNat, List.mem_range.mpr (by omega), ?_⟩
    apply List.mem_map.mpr
    refine ⟨p.1.toNat, List.mem_range.mpr (by omega), ?_⟩
    simp only [Prod.ext_iff]
    constructor <;> simp [Int.toNat_of_nonneg, h1, h3]

/-- Characterisation of `identifyHazards` on a well-formed board: dimensions
and well-formedness are preserved, an in-bounds `EMPTY` cell becomes
`HAZARD` exactly when its 4-connected Empty component has at most 3 cells
(and stays `EMPTY` otherwise), and every other in-bounds cell keeps its
value. -/
theorem identifyHazards_spec (b : Board) (hwf : b.WF) :
    b.identifyHazards.width = b.width
    ∧ b.identifyHazards.height = b.height
    ∧ b.identifyHazards.WF
    ∧ ∀ p : Pos, inB b p →
        pcell b.identifyHazards p =
          if pcell b p = TerrainType.EMPTY then
            (if (compSet b p).ncard ≤ 3 then TerrainType.HAZARD else TerrainType.EMPTY)
          else pcell b p := by
  have inv0 : HazInv b b ∅ := by
    refine ⟨rfl, rfl, hwf, by simp, by simp, by simp, fun q _ _ => rfl⟩
  obtain ⟨invf, _, hcov⟩ :=
    hazardFold_spec (allPositions b) (b, ∅) inv0 (fun p hp => mem_allPositions.mp hp)
  refine ⟨invf.hw, invf.hh, invf.hwf, ?_⟩
  intro p hpin
  by_cases hpe : pcell b p = TerrainType.EMPTY
  · have hgp : Good b p := ⟨hpin, hpe⟩
    have hpV : p ∈ ((allPositions b).foldl hazardStep (b, ∅)).2 :=
      hcov p (mem_allPositions.mpr hpin) hgp
    rw [if_pos hpe]
    exact invf.onV p hpV
  · have hpV : p ∉ ((allPositions b).foldl hazardStep (b, ∅)).2 := by
      intro hc
      exact hpe (invf.goodV p hc).2
    rw [if_neg hpe]
    exact invf.offV p hpin hpV

/-- C8: for every grid and every integer pair `(x,y)`: `isPositionValid`
returns true iff `0 ≤ x < width` and `0 ≤ y < height`; out of bounds,
`getCell` returns the undefined sentinel (`none`) and `setCell` leaves the
board entirely unchanged.  All three operations are total Lean functions,
so no call can throw. -/
theorem claim8_out_of_bounds (b : Board) (x y : Int) :
    (b.isPositionValid x y = true
      ↔ (0 ≤ x ∧ x < (b.width : Int) ∧ 0 ≤ y ∧ y < (b.height : Int)))
    ∧ (¬(0 ≤ x ∧ x < (b.width : Int) ∧ 0 ≤ y ∧ y < (b.height : Int)) →
        b.getCell x y = none ∧ ∀ t : TerrainType, b.setCell x y t = b) := by
  have hiff : b.isPositionValid x y = true
      ↔ (0 ≤ x ∧ x < (b.width : Int) ∧ 0 ≤ y ∧ y < (b.height : Int)) := by
    unfold Board.isPositionValid
    simp only [Bool.and_eq_true, decide_eq_true_eq]
    tauto
  refine ⟨hiff, ?_⟩
  intro h
  have hv : ¬ b.isPositionValid x y = true := fun hc => h (hiff.mp hc)
  constructor
  · unfold Board.getCell
    simp [hv]
  · intro t
    unfold Board.setCell
    simp [hv]

/-- Witness for C8 at a concrete board and out-of-bounds coordinates. -/
theorem claim8_witness :
    (¬(0 ≤ (-1 : Int) ∧ (-1 : Int) < ((2 : Nat) : Int) ∧ 0 ≤ (0 : Int) ∧ (0 : Int) < ((1 : Nat) : Int)))
    ∧ Board.getCell ⟨2, 1, [[TerrainType.FOREST, TerrainType.EMPTY]]⟩ (-1) 0 = none
    ∧ ∀ t : TerrainType,
        Board.setCell ⟨2, 1, [[TerrainType.FOREST, TerrainType.EMPTY]]⟩ (-1) 0 t
          = ⟨2, 1, [[TerrainType.FOREST, TerrainType.EMPTY]]⟩ := by
  refine ⟨by decide, ?_⟩
  exact (claim8_out_of_bounds ⟨2, 1, [[TerrainType.FOREST, TerrainType.EMPTY]]⟩ (-1) 0).2
    (by decide)

/-- C5: `checkCompletedLines` returns exactly the row indices whose row
contains no `EMPTY` cell, in strictly ascending order, and returns `[]`
when every row has an `EMPTY` cell.  It is a pure function of the board
(the board value is not modified). -/
theorem claim5_checkCompletedLines (b : Board) :
    List.Sorted (· < ·) b.checkCompletedLines
    ∧ (∀ y : Nat, y ∈ b.checkCompletedLines ↔
        (y < b.height ∧ ∀ x < b.width, cellAt b x y ≠ TerrainType.EMPTY))
    ∧ ((∀ y < b.height, ∃ x < b.width, cellAt b x y = TerrainType.EMPTY) →
        b.checkCompletedLines = []) := by
  have hmem : ∀ y : Nat, y ∈ b.checkCompletedLines ↔
      (y < b.height ∧ ∀ x < b.width, cellAt b x y ≠ TerrainType.EMPTY) := by
    intro y
    unfold Board.checkCompletedLines rowComplete
    simp [List.mem_filter, List.mem_range, List.all_eq_true, and_comm]
  refine ⟨?_, hmem, ?_⟩
  · exact List.Pairwise.sublist (List.filter_sublist _) (List.pairwise_lt_range b.height)
  · intro h
    rw [List.eq_nil_iff_forall_not_mem]
    intro y hy
    obtain ⟨hyh, hall⟩ := (hmem y).mp hy
    obtain ⟨x, hx, he⟩ := h y hyh
    exact hall x hx he

/-- Witness for C5: a board in which every row has an Empty cell has no
completed lines. -/
theorem claim5_witness :
    (∀ y < 2, ∃ x < 2, cellAt ⟨2, 2, [[TerrainType.EMPTY, TerrainType.FOREST],
        [TerrainType.WATER, TerrainType.EMPTY]]⟩ x y = TerrainType.EMPTY)
    ∧ Board.checkCompletedLines ⟨2, 2, [[TerrainType.EMPTY, TerrainType.FOREST],
        [TerrainType.WATER, TerrainType.EMPTY]]⟩ = [] := by
  refine ⟨by decide, ?_⟩
  exact (claim5_checkCompletedLines _).2.2 (by decide)

/-- C3: `isValidMove` returns true iff every nonzero cell of the shape
matrix maps to an in-bounds grid coordinate holding `EMPTY` (hence false
as soon as one occupied cell is out of bounds or lands on a non-Empty
cell).  The embedding is a pure function: neither board nor piece is
modified. -/
theorem claim3_isValidMove (b : Board) (shape : List (List Nat)) (pos : Pos) :
    isValidMove b shape pos = true ↔
      ∀ y < shape.length, ∀ x < (shape.getD y []).length,
        (shape.getD y []).getD x 0 ≠ 0 →
          (b.isPositionValid (pos.1 + Int.ofNat x) (pos.2 + Int.ofNat y) = true
           ∧ b.getCell (pos.1 + Int.ofNat x) (pos.2 + Int.ofNat y)
               = some TerrainType.EMPTY) := by
  unfold isValidMove cellOK
  simp only [List.all_eq_true, List.mem_range, Bool.or_eq_true, Bool.and_eq_true,
    beq_iff_eq]
  constructor
  · intro h y hy x hx hnz
    rcases h y hy x hx with h1 | h2
    · exact absurd h1 hnz
    · exact h2
  · intro h y hy x hx
    by_cases hz : (shape.getD y []).getD x 0 = 0
    · exact Or.inl hz
    · exact Or.inr (h y hy x hx hz)

theorem entry_eq_getElem (m : List (List Nat)) {i k : Nat}
    (hi : i < m.length) (hk : k < m[i].length) :
    entry m i k = m[i][k] := by
  unfold entry
  rw [List.getD_eq_getElem _ [] hi, List.getD_eq_getElem _ 0 hk]

theorem rect_head_length {s : List (List Nat)} {r c : Nat} (h : Rect s r c)
    (hr : 0 < r) : (s.headD []).length = c := by
  obtain ⟨hlen, hrows⟩ := h
  cases s with
  | nil =>
    simp only [List.length_nil] at hlen
    omega
  | cons a t => exact hrows a (List.mem_cons_self a t)

theorem rotate_rect {s : List (List Nat)} {r c : Nat} (h : Rect s r c)
    (hr : 0 < r) : Rect (rotate s) c r := by
  constructor
  · unfold rotate
    rw [List.length_map, List.length_range, rect_head_length h hr]
  · intro row hrow
    unfold rotate at hrow
    obtain ⟨i, _, rfl⟩ := List.mem_map.mp hrow
    rw [List.length_map, List.length_reverse, List.length_range, h.1]

theorem rotate_entry {s : List (List Nat)} {r c : Nat} (h : Rect s r c)
    {i k : Nat} (hi : i < c) (hk : k < r) :
    entry (rotate s) i k = entry s (r - 1 - k) i := by
  have hr : 0 < r := by omega
  have hhead : (s.headD []).length = c := rect_head_length h hr
  have hlen : s.length = r := h.1
  unfold entry rotate
  rw [List.getD_eq_getElem _ []
    (by rw [List.length_map, List.length_range, hhead]; omega)]
  rw [List.getElem_map, List.getElem_range]
  rw [List.getD_eq_getElem _ 0
    (by rw [List.length_map, List.length_reverse, List.length_range, hlen]; omega)]
  rw [List.getElem_map, List.getElem_reverse, List.getElem_range, List.length_range, hlen]

/-- Rotating four times is the identity on every rectangular shape with at
least one row and one column. -/
theorem rotate_four_cycle {s : List (List Nat)} {r c : Nat} (h : Rect s r c)
    (hr : 0 < r) (hc : 0 < c) : rotate (rotate (rotate (rotate s))) = s := by
  have h1 := rotate_rect h hr
  have h2 := rotate_rect h1 hc
  have h3 := rotate_rect h2 hr
  have h4 := rotate_rect h3 hc
  obtain ⟨hsl, hsr⟩ := h
  obtain ⟨h4l, h4r⟩ := h4
  apply List.ext_getElem (by omega)
  intro i h1i h2i
  apply List.ext_getElem
  · rw [h4r _ (List.getElem_mem h1i), hsr _ (List.getElem_mem h2i)]
  · intro k hk1 hk2
    have hir : i < r := by omega
    have hkc : k < c := by
      rw [h4r _ (List.getElem_mem h1i)] at hk1
      omega
    have e1 : entry (rotate (rotate (rotate (rotate s)))) i k = entry s i k := by
      rw [rotate_entry h3 hir hkc, rotate_entry h2 (by omega) hir,
        rotate_entry h1 (by omega) (by omega), rotate_entry ⟨hsl, hsr⟩ (by omega) (by omega)]
      have e2 : r - 1 - (r - 1 - i) = i := by omega
      have e3 : c - 1 - (c - 1 - k) = k := by omega
      rw [e2, e3]
    rw [← entry_eq_getElem _ h1i hk1, ← entry_eq_getElem _ h2i hk2]
    exact e1

theorem cellAt_eq_getElem {b : Board} {x y : Nat} (hy : y < b.grid.length)
    (hx : x < b.grid[y].length) : cellAt b x y = b.grid[y][x] := by
  unfold cellAt
  rw [List.getD_eq_getElem _ [] hy, List.getD_eq_getElem _ _ hx]

theorem pcell_ofNat (b : Board) (x y : Nat) :
    pcell b (Int.ofNat x, Int.ofNat y) = cellAt b x y := by
  simp [pcell]

theorem inB_congr {b b2 : Board} (hw : b2.width = b.width)
    (hh : b2.height = b.height) (p : Pos) : inB b2 p ↔ inB b p := by
  unfold inB
  rw [hw, hh]

theorem board_eq_of_cells {b1 b2 : Board} (hw : b1.width = b2.width)
    (hh : b1.height = b2.height) (h1 : b1.WF) (h2 : b2.WF)
    (hc : ∀ p : Pos, inB b1 p → pcell b1 p = pcell b2 p) : b1 = b2 := by
  obtain ⟨hl1, hr1⟩ := h1
  obtain ⟨hl2, hr2⟩ := h2
  have hg : b1.grid = b2.grid := by
    apply List.ext_getElem (by omega)
    intro y hy1 hy2
    apply List.ext_getElem
    · rw [hr1 _ (List.getElem_mem hy1), hr2 _ (List.getElem_mem hy2), hw]
    · intro x hx1 hx2
      have hxw : x < b1.width := by
        rw [hr1 _ (List.getElem_mem hy1)] at hx1
        exact hx1
      have hyh : y < b1.height := by omega
      have hp := hc (Int.ofNat x, Int.ofNat y)
        ⟨Int.ofNat_nonneg x, Int.ofNat_lt.mpr hxw,
         Int.ofNat_nonneg y, Int.ofNat_lt.mpr hyh⟩
      rw [pcell_ofNat, pcell_ofNat, cellAt_eq_getElem hy1 hx1, cellAt_eq_getElem hy2 hx2] at hp
      exact hp
  obtain ⟨w1, t1, g1⟩ := b1
  obtain ⟨w2, t2, g2⟩ := b2
  simp only at hw hh hg
  rw [hw, hh, hg]

/-- C1: after `identifyHazards`, on a well-formed board, every in-bounds
cell of a maximal 4-connected Empty component of size 1 to 3 is `HAZARD`,
every cell of such a component of size above 3 is still `EMPTY`, and every
cell that was not `EMPTY` keeps its previous value (Path, Forest, Mountain,
Water, SafeHaven and Hazard cells are untouched).  The component of a cell
`p` is `compSet b p`, its size the cardinality `ncard`. -/
theorem claim1_identifyHazards_components (b : Board) (hwf : b.WF) :
    ∀ p : Pos, inB b p →
      ((pcell b p = TerrainType.EMPTY ∧ 1 ≤ (compSet b p).ncard ∧ (compSet b p).ncard ≤ 3 →
          pcell b.identifyHazards p = TerrainType.HAZARD)
       ∧ (pcell b p = TerrainType.EMPTY ∧ 3 < (compSet b p).ncard →
          pcell b.identifyHazards p = TerrainType.EMPTY)
       ∧ (pcell b p ≠ TerrainType.EMPTY → pcell b.identifyHazards p = pcell b p)) := by
  intro p hp
  obtain ⟨-, -, -, hcells⟩ := identifyHazards_spec b hwf
  have hc := hcells p hp
  refine ⟨?_, ?_, ?_⟩
  · rintro ⟨he, -, h3⟩
    rw [hc, if_pos he, if_pos h3]
  · rintro ⟨he, h3⟩
    rw [hc, if_pos he, if_neg (by omega)]
  · intro hne
    rw [hc, if_neg hne]

/-- Witness for C1: on the 1×1 Empty board the unique cell forms a
component of size 1 and becomes `HAZARD`. -/
theorem claim1_witness :
    Board.WF ⟨1, 1, [[TerrainType.EMPTY]]⟩
    ∧ inB ⟨1, 1, [[TerrainType.EMPTY]]⟩ (0, 0)
    ∧ pcell (Board.identifyHazards ⟨1, 1, [[TerrainType.EMPTY]]⟩) (0, 0)
        = TerrainType.HAZARD := by
  have hcomp : compSet ⟨1, 1, [[TerrainType.EMPTY]]⟩ (0, 0) = {((0 : Int), (0 : Int))} := by
    apply Set.Subset.antisymm
    · intro q hq
      rcases reachAvoid_good hq with h | h
      · exact h ▸ rfl
      · obtain ⟨⟨h1, h2, h3, h4⟩, -⟩ := h.1
        have h2b : q.1 < ((1 : Nat) : Int) := h2
        have h4b : q.2 < ((1 : Nat) : Int) := h4
        have hx : q.1 = 0 := by omega
        have hy : q.2 = 0 := by omega
        simp [Set.mem_singleton_iff, Prod.ext_iff, hx, hy]
    · intro q hq
      rw [Set.mem_singleton_iff] at hq
      subst hq
      exact Relation.ReflTransGen.refl
  refine ⟨by decide, by decide, ?_⟩
  apply (claim1_identifyHazards_components ⟨1, 1, [[TerrainType.EMPTY]]⟩ (by decide)
    (0, 0) (by decide)).1
  refine ⟨by decide, ?_, ?_⟩
  · rw [hcomp, Set.ncard_singleton]
  · rw [hcomp, Set.ncard_singleton]
    omega

/-- C4 counterexample: the claim quantifies over every rectangular shape,
but for the degenerate 1×0 rectangular shape `[[]]` four rotations yield
`[]`, not the original (in the JavaScript source the second rotation even
throws, reading `shape[0].length` of an empty array). -/
theorem claim4_counterexample :
    Rect [([] : List Nat)] 1 0
    ∧ rotate (rotate (rotate (rotate [([] : List Nat)]))) ≠ [([] : List Nat)] := by
  refine ⟨?_, by decide⟩
  unfold Rect
  decide

/-- C4 (amended): four rotations return the original shape, in dimensions
and cell values, for every rectangular shape with at least one row and at
least one column; the degenerate shapes made of empty rows are excluded.
One rotation is the clockwise rotation reading the original rows
bottom-to-top at each column. -/
theorem claim4_rotate_four_cycle {s : List (List Nat)} {r c : Nat} (h : Rect s r c)
    (hr : 0 < r) (hc : 0 < c) : rotate (rotate (rotate (rotate s))) = s :=
  rotate_four_cycle h hr hc

/-- Witness for C4 at the L-piece shape of `src/piece.ts`. -/
theorem claim4_witness :
    Rect [[2, 0, 0], [2, 2, 2]] 2 3
    ∧ rotate (rotate (rotate (rotate [[2, 0, 0], [2, 2, 2]]))) = [[2, 0, 0], [2, 2, 2]] := by
  refine ⟨?_, ?_⟩
  · unfold Rect
    decide
  · exact claim4_rotate_four_cycle (r := 2) (c := 3) (by unfold Rect; decide)
      (by decide) (by decide)

theorem good_identifyHazards {b : Board} (hwf : b.WF) (q : Pos) :
    Good b.identifyHazards q ↔ (Good b q ∧ 3 < (compSet b q).ncard) := by
  obtain ⟨hw1, hh1, -, hcells1⟩ := identifyHazards_spec b hwf
  unfold Good
  constructor
  · rintro ⟨hin, hemp⟩
    have hinb : inB b q := (inB_congr hw1 hh1 q).mp hin
    rw [hcells1 q hinb] at hemp
    by_cases he : pcell b q = TerrainType.EMPTY
    · rw [if_pos he] at hemp
      by_cases h3 : (compSet b q).ncard ≤ 3
      · rw [if_pos h3] at hemp
        exact absurd hemp (by decide)
      · exact ⟨⟨hinb, he⟩, by omega⟩
    · rw [if_neg he] at hemp
      exact absurd hemp he
  · rintro ⟨⟨hinb, hemp⟩, h3⟩
    refine ⟨(inB_congr hw1 hh1 q).mpr hinb, ?_⟩
    rw [hcells1 q hinb, if_pos hemp, if_neg (by omega)]

theorem compSet_identifyHazards {b : Board} (hwf : b.WF) {p : Pos}
    (hp : Good b.identifyHazards p) : compSet b.identifyHazards p = compSet b p := by
  obtain ⟨hgp, h3⟩ := (good_identifyHazards hwf p).mp hp
  apply Set.Subset.antisymm
  · intro q hq
    refine Relation.ReflTransGen.mono ?_ hq
    rintro x y ⟨ha, hg, -⟩
    exact ⟨ha, ((good_identifyHazards hwf y).mp hg).1, by simp⟩
  · intro q hq
    induction hq with
    | refl => exact Relation.ReflTransGen.refl
    | tail hpx hstep ih =>
      rename_i x y
      have hyg : Good b y := hstep.2.1
      have hreach : Reach b p y := hpx.tail hstep
      have hyg1 : Good b.identifyHazards y := by
        rw [good_identifyHazards hwf y, compSet_eq_of_reach hgp hreach]
        exact ⟨hyg, h3⟩
      exact ih.tail ⟨hstep.1, hyg1, by simp⟩

/-- C7: `identifyHazards` is idempotent on well-formed boards: the Empty
cells remaining after one pass are exactly the components of size above 3,
whose components are unchanged, so a second pass changes nothing. -/
theorem claim7_identifyHazards_idempotent (b : Board) (hwf : b.WF) :
    b.identifyHazards.identifyHazards = b.identifyHazards := by
  obtain ⟨hw1, hh1, hwf1, hcells1⟩ := identifyHazards_spec b hwf
  obtain ⟨hw2, hh2, hwf2, hcells2⟩ := identifyHazards_spec b.identifyHazards hwf1
  apply board_eq_of_cells hw2 hh2 hwf2 hwf1
  intro p hpin2
  have hpin1 : inB b.identifyHazards p := (inB_congr hw2 hh2 p).mp hpin2
  by_cases hemp : pcell b.identifyHazards p = TerrainType.EMPTY
  · have hgp1 : Good b.identifyHazards p := ⟨hpin1, hemp⟩
    obtain ⟨-, h3⟩ := (good_identifyHazards hwf p).mp hgp1
    rw [hcells2 p hpin1, if_pos hemp, compSet_identifyHazards hwf hgp1, if_neg (by omega)]
    exact hemp.symm
  · rw [hcells2 p hpin1, if_neg hemp]

/-- Witness for C7 at a concrete 2×2 board. -/
theorem claim7_witness :
    Board.WF ⟨2, 2, [[TerrainType.EMPTY, TerrainType.FOREST],
        [TerrainType.FOREST, TerrainType.EMPTY]]⟩
    ∧ (Board.identifyHazards ⟨2, 2, [[TerrainType.EMPTY, TerrainType.FOREST],
        [TerrainType.FOREST, TerrainType.EMPTY]]⟩).identifyHazards
      = Board.identifyHazards ⟨2, 2, [[TerrainType.EMPTY, TerrainType.FOREST],
        [TerrainType.FOREST, TerrainType.EMPTY]]⟩ :=
  ⟨by decide, claim7_identifyHazards_idempotent _ (by decide)⟩

theorem rowFill_width (y : Nat) :
    ∀ (xs : List Nat) (bb : Board),
      (xs.foldl (fun b2 x => setRaw b2 x y TerrainType.PATH) bb).width = bb.width := by
  intro xs
  induction xs with
  | nil => intro bb; rfl
  | cons x xs ih =>
    intro bb
    rw [List.foldl_cons, ih]
    rfl

theorem rowFill_height (y : Nat) :
    ∀ (xs : List Nat) (bb : Board),
      (xs.foldl (fun b2 x => setRaw b2 x y TerrainType.PATH) bb).height = bb.height := by
  intro xs
  induction xs with
  | nil => intro bb; rfl
  | cons x xs ih =>
    intro bb
    rw [List.foldl_cons, ih]
    rfl

theorem rowFill_WF (y : Nat) :
    ∀ (xs : List Nat) (bb : Board), bb.WF →
      (xs.foldl (fun b2 x => setRaw b2 x y TerrainType.PATH) bb).WF := by
  intro xs
  induction xs with
  | nil => intro bb h; exact h
  | cons x xs ih =>
    intro bb h
    exact ih _ (setRaw_WF h x y TerrainType.PATH)

theorem rowFill_cells (y : Nat) :
    ∀ (xs : List Nat) (bb : Board), bb.WF → y < bb.height → (∀ x ∈ xs, x < bb.width) →
      ∀ x2 y2 : Nat,
        cellAt (xs.foldl (fun b2 x => setRaw b2 x y TerrainType.PATH) bb) x2 y2
          = if y2 = y ∧ x2 ∈ xs then TerrainType.PATH else cellAt bb x2 y2 := by
  intro xs
  induction xs with
  | nil =>
    intro bb _ _ _ x2 y2
    simp
  | cons x xs ih =>
    intro bb hwf hy hxs x2 y2
    rw [List.foldl_cons,
      ih (setRaw bb x y TerrainType.PATH) (setRaw_WF hwf x y TerrainType.PATH)
        hy (fun x3 h3 => hxs x3 (List.mem_cons_of_mem x h3)),
      cellAt_setRaw hwf ⟨hxs x (List.mem_cons_self x xs), hy⟩]
    by_cases h1 : y2 = y
    · by_cases h2 : x2 ∈ xs
      · simp [h1, h2]
      · by_cases h3 : x2 = x
        · simp [h1, h2, h3]
        · simp [h1, h2, h3]
    · simp [h1]

/-- C6: after `convertCompletedLinesToPath` on a well-formed board with
in-bounds row indices, every cell of every listed row is `PATH`, every cell
of an unlisted row is unchanged, and the dimensions and well-formedness of
the board are preserved. -/
theorem claim6_convertCompletedLinesToPath (b : Board) (hwf : b.WF) (lines : List Nat)
    (hl : ∀ y ∈ lines, y < b.height) :
    (b.convertCompletedLinesToPath lines).width = b.width
    ∧ (b.convertCompletedLinesToPath lines).height = b.height
    ∧ (b.convertCompletedLinesToPath lines).WF
    ∧ ∀ x y : Nat, x < b.width →
        cellAt (b.convertCompletedLinesToPath lines) x y
          = if y ∈ lines then TerrainType.PATH else cellAt b x y := by
  unfold Board.convertCompletedLinesToPath
  induction lines generalizing b with
  | nil =>
    refine ⟨rfl, rfl, hwf, ?_⟩
    intro x y _
    simp
  | cons l rest ih =>
    have hlh : l < b.height := hl l (List.mem_cons_self l rest)
    have hrest : ∀ y ∈ rest, y < b.height := fun y hy => hl y (List.mem_cons_of_mem l hy)
    set b1 := (List.range b.width).foldl (fun b2 x => setRaw b2 x l TerrainType.PATH) b with hb1
    have hb1w : b1.width = b.width := rowFill_width l _ b
    have hb1h : b1.height = b.height := rowFill_height l _ b
    have hb1wf : b1.WF := rowFill_WF l _ b hwf
    have hb1c : ∀ x2 y2 : Nat,
        cellAt b1 x2 y2 = if y2 = l ∧ x2 < b.width then TerrainType.PATH
          else cellAt b x2 y2 := by
      intro x2 y2
      rw [hb1, rowFill_cells l _ b hwf hlh (fun x3 h3 => List.mem_range.mp h3)]
      by_cases h1 : y2 = l
      · by_cases h2 : x2 < b.width
        · simp [h1, h2, List.mem_range]
        · simp [h1, h2, List.mem_range]
      · simp [h1]
    obtain ⟨ihw, ihh, ihwf, ihc⟩ :=
      ih b1 hb1wf (by rw [hb1h]; exact hrest)
    rw [List.foldl_cons]
    have hwidths : b1.width = b.width := hb1w
    refine ⟨?_, ?_, ?_, ?_⟩
    · rw [← hb1]
      rw [ihw, hb1w]
    · rw [← hb1]
      rw [ihh, hb1h]
    · rw [← hb1]
      exact ihwf
    · intro x y hx
      rw [← hb1]
      rw [ihc x y (by rw [hb1w]; exact hx), hb1c x y]
      by_cases h1 : y ∈ rest
      · simp [h1, List.mem_cons]
      · by_cases h2 : y = l
        · simp [h1, h2, hx, List.mem_cons]
        · simp [h1, h2, List.mem_cons]

/-- Witness for C6: converting row 1 of a concrete 2×2 board. -/
theorem claim6_witness :
    Board.WF ⟨2, 2, [[TerrainType.EMPTY, TerrainType.FOREST],
        [TerrainType.WATER, TerrainType.MOUNTAIN]]⟩
    ∧ (∀ y ∈ [1], y < 2)
    ∧ ∀ x < 2, ∀ y < 2,
        cellAt (Board.convertCompletedLinesToPath ⟨2, 2,
            [[TerrainType.EMPTY, TerrainType.FOREST],
             [TerrainType.WATER, TerrainType.MOUNTAIN]]⟩ [1]) x y
          = if y ∈ [1] then TerrainType.PATH
            else cellAt ⟨2, 2, [[TerrainType.EMPTY, TerrainType.FOREST],
                [TerrainType.WATER, TerrainType.MOUNTAIN]]⟩ x y := by
  refine ⟨by decide, by decide, ?_⟩
  intro x hx y _
  exact (claim6_convertCompletedLinesToPath _ (by decide) [1] (by decide)).2.2.2 x y hx

theorem find?_range_minimal {p : Nat → Bool} {n x : Nat}
    (h : (List.range n).find? p = some x) :
    x < n ∧ p x = true ∧ ∀ y < x, p y = false := by
  induction n with
  | zero => simp [List.range_zero] at h
  | succ n ih =>
    rw [List.range_succ, List.find?_append] at h
    cases hfn : (List.range n).find? p with
    | some x2 =>
      rw [hfn] at h
      simp only [Option.or_some, Option.some.injEq] at h
      subst h
      obtain ⟨h1, h2, h3⟩ := ih hfn
      exact ⟨by omega, h2, h3⟩
    | none =>
      rw [hfn] at h
      simp only [Option.or] at h
      have hall : ∀ y ∈ List.range n, ¬ p y = true := List.find?_eq_none.mp hfn
      cases hpn : p n with
      | true =>
        rw [List.find?_cons, hpn] at h
        simp only [List.find?_nil] at h
        have hx : x = n := by
          cases h
          rfl
        subst hx
        refine ⟨by omega, hpn, ?_⟩
        intro y hy
        have := hall y (List.mem_range.mpr hy)
        cases hp2 : p y
        · rfl
        · exact absurd hp2 this
      | false =>
        rw [List.find?_cons, hpn] at h
        simp at h

/-- C2 counterexample: on a 1×1 board whose single cell is `PATH`, row 0
does contain a cell that is neither Hazard nor Empty (at `x = 0`), yet the
fallback condition fires, because the scan leaves the player at `(0, 0)`
and the source tests `!playerPosition.x && !playerPosition.y`.  This
refutes the claim that the fallback is used if and only if no valid row-0
cell exists. -/
theorem claim2_counterexample :
    (Board.getCell ⟨1, 1, [[TerrainType.PATH]]⟩ (Int.ofNat 0) 0 ≠ some TerrainType.HAZARD
     ∧ Board.getCell ⟨1, 1, [[TerrainType.PATH]]⟩ (Int.ofNat 0) 0 ≠ some TerrainType.EMPTY
     ∧ 0 < (⟨1, 1, [[TerrainType.PATH]]⟩ : Board).width)
    ∧ usesFallback ⟨1, 1, [[TerrainType.PATH]]⟩ (0, 0) = true := by
  decide

/-- C2 (amended): the scan places the player at the first row-0 cell that
is neither Hazard nor Empty when one exists, and keeps the previous
position otherwise; the random fallback is used if and only if the
post-scan position equals the origin `(0, 0)` — not if and only if the
scan failed. -/
theorem claim2_amended_spawn (b : Board) (prev : Pos) :
    (∀ x : Nat, scanRow0 b = some x →
        afterScan b prev = (Int.ofNat x, 0)
        ∧ x < b.width
        ∧ (b.getCell (Int.ofNat x) 0 ≠ some TerrainType.HAZARD
           ∧ b.getCell (Int.ofNat x) 0 ≠ some TerrainType.EMPTY)
        ∧ ∀ y < x, (b.getCell (Int.ofNat y) 0 = some TerrainType.HAZARD
                    ∨ b.getCell (Int.ofNat y) 0 = some TerrainType.EMPTY))
    ∧ (scanRow0 b = none →
        afterScan b prev = prev
        ∧ ∀ x < b.width, (b.getCell (Int.ofNat x) 0 = some TerrainType.HAZARD
                          ∨ b.getCell (Int.ofNat x) 0 = some TerrainType.EMPTY))
    ∧ (usesFallback b prev = true ↔ afterScan b prev = ((0 : Int), (0 : Int))) := by
  refine ⟨?_, ?_, ?_⟩
  · intro x hx
    obtain ⟨h1, h2, h3⟩ := find?_range_minimal hx
    refine ⟨by rw [afterScan, hx], h1, ?_, ?_⟩
    · have := h2
      simp only [Bool.and_eq_true, Bool.not_eq_eq_eq_not, Bool.not_true, beq_eq_false_iff_ne,
        ne_eq] at this
      exact this
    · intro y hy
      have := h3 y hy
      simp only [Bool.and_eq_false_iff, Bool.not_eq_false', beq_iff_eq] at this
      tauto
  · intro hn
    unfold scanRow0 at hn
    have hall := List.find?_eq_none.mp hn
    refine ⟨by rw [afterScan]; unfold scanRow0; rw [hn], ?_⟩
    intro x hx
    have := hall x (List.mem_range.mpr hx)
    simp only [Bool.and_eq_true, Bool.not_eq_eq_eq_not, Bool.not_true, beq_eq_false_iff_ne,
      ne_eq, not_and, not_not] at this
    by_cases hh : b.getCell (Int.ofNat x) 0 = some TerrainType.HAZARD
    · exact Or.inl hh
    · exact Or.inr (this hh)
  · unfold usesFallback
    rw [Bool.and_eq_true, beq_iff_eq, beq_iff_eq, Prod.ext_iff]

theorem removeTreasureAt_subset (ts : List (Pos × Int)) (x y : Int) :
    ∀ t ∈ removeTreasureAt ts x y, t ∈ ts := by
  induction ts with
  | nil => simp [removeTreasureAt]
  | cons a rest ih =>
    intro t ht
    rw [removeTreasureAt] at ht
    by_cases h : a.1.1 = x ∧ a.1.2 = y
    · rw [if_pos h] at ht
      exact List.mem_cons_of_mem a ht
    · rw [if_neg h] at ht
      rcases List.mem_cons.mp ht with h2 | h2
      · exact h2 ▸ List.mem_cons_self a rest
      · exact List.mem_cons_of_mem a (ih t h2)

theorem switchToBuilding_score (s : GState) : (switchToBuilding s).score = 0 := rfl

theorem movePlayer_ScoreInv {s : GState} (h : ScoreInv s) (dx dy : Int) :
    ScoreInv (movePlayer s dx dy) := by
  obtain ⟨hs, ht⟩ := h
  unfold ScoreInv movePlayer
  dsimp only
  split
  · exact ⟨hs, ht⟩
  · split
    · exact ⟨hs, ht⟩
    · split
      · refine ⟨?_, ht⟩
        dsimp only
        split <;> omega
      · cases hf : s.treasures.find? fun t =>
            t.1.1 == s.playerPosition.1 + dx && t.1.2 == s.playerPosition.2 + dy with
        | some t =>
          have htv : 0 ≤ t.2 := ht t (List.mem_of_find?_eq_some hf)
          have hrem : ∀ t2 ∈ removeTreasureAt s.treasures
              (s.playerPosition.1 + dx) (s.playerPosition.2 + dy), 0 ≤ t2.2 :=
            fun t2 h2 => ht t2 (removeTreasureAt_subset _ _ _ t2 h2)
          simp only [hf]
          split <;> split <;> refine ⟨?_, ?_⟩ <;>
            first
              | rw [switchToBuilding_score]
              | (dsimp only; omega)
              | exact hrem
        | none =>
          simp only [hf]
          split <;> split <;> refine ⟨?_, ?_⟩ <;>
            first
              | rw [switchToBuilding_score]
              | (dsimp only; omega)
              | exact ht

theorem moveEnemiesAux_score (bd : Board) (pl : Pos) (rand : Nat → Bool) :
    ∀ (es : List Pos) (i : Nat) (sc : Int), 0 ≤ sc →
      0 ≤ (moveEnemiesAux bd pl rand i es sc).2 := by
  intro es
  induction es with
  | nil =>
    intro i sc h
    simpa [moveEnemiesAux] using h
  | cons e es ih =>
    intro i sc h
    rw [moveEnemiesAux]
    dsimp only
    repeat' split
    all_goals
      first
        | exact ih (i + 1) _ h
        | exact ih (i + 1) _ (by omega)

theorem applyOp_ScoreInv {s : GState} (h : ScoreInv s) (op : GOp) :
    ScoreInv (applyOp s op) := by
  cases op with
  | move dx dy => exact movePlayer_ScoreInv h dx dy
  | tick rand =>
    obtain ⟨hs, ht⟩ := h
    exact ⟨moveEnemiesAux_score s.board s.playerPosition rand s.enemies 0 s.score hs, ht⟩
  | lines n =>
    obtain ⟨hs, ht⟩ := h
    refine ⟨?_, ht⟩
    have hn : (0 : Int) ≤ (n : Int) * 100 := by positivity
    simp only [applyOp]
    omega
  | reset =>
    obtain ⟨hs, ht⟩ := h
    exact ⟨le_refl 0, ht⟩

/-- C9: the score never becomes negative.  Both penalties (the 50-point
enemy encounter in `movePlayer` and the 100-point catch in `moveEnemies`)
clamp at 0, and every other update adds a nonnegative amount, so from any
state with nonnegative score (in particular a fresh game at score 0, with
no treasures or only the 50-point treasures the source creates) the score
stays nonnegative across any sequence of operations. -/
theorem claim9_score_nonneg (s : GState) (ops : List GOp) (h : ScoreInv s) :
    0 ≤ (runOps s ops).score ∧ ScoreInv (runOps s ops) := by
  have hinv : ∀ (l : List GOp) (s2 : GState), ScoreInv s2 → ScoreInv (runOps s2 l) := by
    intro l
    induction l with
    | nil => exact fun s2 h2 => h2
    | cons op l2 ih =>
      intro s2 h2
      simp only [runOps, List.foldl_cons]
      exact ih (applyOp s2 op) (applyOp_ScoreInv h2 op)
  exact ⟨(hinv ops s h).1, hinv ops s h⟩

/-- Witness for C9 from a fresh adventure state at score 0. -/
theorem claim9_witness :
    ScoreInv ⟨⟨1, 1, [[TerrainType.PATH]]⟩, 0, (0, 0), [], []⟩
    ∧ 0 ≤ (runOps ⟨⟨1, 1, [[TerrainType.PATH]]⟩, 0, (0, 0), [], []⟩
        [GOp.move 1 0, GOp.lines 2, GOp.reset]).score :=
  ⟨by decide, (claim9_score_nonneg _ _ (by decide)).1⟩

/-- C10: when `movePlayer` targets an in-bounds, traversable cell occupied
by an enemy, only the score changes (the clamped 50-point penalty): player
position, treasure list, enemy list and grid are untouched, and no
treasure at that cell is collected. -/
theorem claim10_enemy_encounter (s : GState) (dx dy : Int)
    (hvalid : s.board.isPositionValid (s.playerPosition.1 + dx)
      (s.playerPosition.2 + dy) = true)
    (hno_empty : s.board.getCell (s.playerPosition.1 + dx) (s.playerPosition.2 + dy)
      ≠ some TerrainType.EMPTY)
    (hno_hazard : s.board.getCell (s.playerPosition.1 + dx) (s.playerPosition.2 + dy)
      ≠ some TerrainType.HAZARD)
    (henemy : (s.enemies.any fun e =>
        e.1 == s.playerPosition.1 + dx && e.2 == s.playerPosition.2 + dy) = true) :
    (movePlayer s dx dy).score = (if s.score - 50 < 0 then 0 else s.score - 50)
    ∧ (movePlayer s dx dy).playerPosition = s.playerPosition
    ∧ (movePlayer s dx dy).treasures = s.treasures
    ∧ (movePlayer s dx dy).enemies = s.enemies
    ∧ (movePlayer s dx dy).board = s.board := by
  unfold movePlayer
  rw [if_neg (fun hc => hc hvalid),
    if_neg (fun hc => hc.elim hno_empty hno_hazard),
    if_pos henemy]
  exact ⟨rfl, rfl, rfl, rfl, rfl⟩

/-- Witness for C10: a concrete encounter with an enemy on a Path cell
holding a treasure; the score drops by 50 (clamped) and nothing else
changes. -/
theorem claim10_witness :
    (Board.isPositionValid ⟨2, 1, [[TerrainType.PATH, TerrainType.PATH]]⟩ 1 0 = true)
    ∧ (movePlayer ⟨⟨2, 1, [[TerrainType.PATH, TerrainType.PATH]]⟩, 30, (0, 0),
        [(1, 0)], [((1, 0), 50)]⟩ 1 0).score = 0
    ∧ (movePlayer ⟨⟨2, 1, [[TerrainType.PATH, TerrainType.PATH]]⟩, 30, (0, 0),
        [(1, 0)], [((1, 0), 50)]⟩ 1 0).treasures = [((1, 0), 50)] := by
  refine ⟨by decide, ?_, ?_⟩
  · rw [(claim10_enemy_encounter _ 1 0 (by decide) (by decide) (by decide) (by decide)).1]
    decide
  · exact (claim10_enemy_encounter _ 1 0 (by decide) (by decide) (by decide) (by decide)).2.2.1

/-- Witness for the amended C2: on a board whose row 0 starts Empty and
then has Forest, the scan finds `x = 1` and the player lands on `(1, 0)`;
the fallback condition does not fire. -/
theorem claim2_witness :
    scanRow0 ⟨2, 1, [[TerrainType.EMPTY, TerrainType.FOREST]]⟩ = some 1
    ∧ afterScan ⟨2, 1, [[TerrainType.EMPTY, TerrainType.FOREST]]⟩ (5, 5) = (Int.ofNat 1, 0) :=
  ⟨by decide,
    ((claim2_amended_spawn ⟨2, 1, [[TerrainType.EMPTY, TerrainType.FOREST]]⟩ (5, 5)).1
      1 (by decide)).1⟩
